import Mathlib

/-!
# seoa11y-client: dispatch and aggregation engine

A shallow embedding of `src/index.js`: the pure helpers (`getIssuesMetadata`,
`addCodesFromIssues`), the reporting-API write calls, and the `queueJobs`
dispatch engine as an event-driven state machine.  JavaScript callbacks run to
completion, so every callback is one atomic step of the machine.
-/

namespace Seoa11y

/-! ## Data model -/

/-- A page address, as found in `settings.report.urls`. -/
abbrev Url := String

/-- An issue classifier, `issue.code`. -/
abbrev Code := String

/-- The value carried by `response.error` and passed to `reject`. -/
abbrev Err := String

/-- The JSON body of a reporting-API response; its content is never inspected. -/
abbrev Body := String

/-- An issue object as returned by the worker:
`{code, context, message, selector, type, typeCode}`. -/
structure Issue where
  code : Code
  context : String
  message : String
  selector : String
  type : String
  typeCode : Int
  deriving DecidableEq, Repr

/-- The `metadata` object built by `getIssuesMetadata`. -/
structure UrlRecord where
  reportId : String
  url : Url
  codes : List Code
  nErrors : Nat
  nWarnings : Nat
  nNotices : Nat
  deriving DecidableEq, Repr

/-- The fields of a unirest response that the client reads.  `statusType` is
`none` when the transport gave no status at all. -/
structure Response (β : Type) where
  statusType : Option Nat
  body : β
  error : Err
  deriving DecidableEq, Repr

/-! ## Pure helpers -/

/-- The body of the `forEach` callback of `addCodesFromIssues`:
`if (codes.indexOf(issue.code) === -1) codes.push(issue.code)`. -/
def pushCode (codes : List Code) (issue : Issue) : List Code :=
  if issue.code ∈ codes then codes else codes ++ [issue.code]

/-- The function `addCodesFromIssues(codes, issues)`. -/
def addCodesFromIssues (codes : List Code) (issues : List Issue) : List Code :=
  issues.foldl pushCode codes

/-- The body of the `forEach` callback of `getIssuesMetadata`: the code is
pushed when it is new, then the `switch (issue.typeCode)` bumps one counter. -/
def metadataStep (metadata : UrlRecord) (issue : Issue) : UrlRecord :=
  let m := { metadata with codes := pushCode metadata.codes issue }
  if issue.typeCode = 1 then { m with nErrors := m.nErrors + 1 }
  else if issue.typeCode = 2 then { m with nWarnings := m.nWarnings + 1 }
  else if issue.typeCode = 3 then { m with nNotices := m.nNotices + 1 }
  else m

/-- The function `getIssuesMetadata(settings)`.  `issues` is `none` when
`settings.issues` is null or has no `forEach`. -/
def getIssuesMetadata (reportId : String) (url : Url) (issues : Option (List Issue)) :
    UrlRecord :=
  let metadata : UrlRecord :=
    { reportId := reportId, url := url, codes := [], nErrors := 0, nWarnings := 0,
      nNotices := 0 }
  match issues with
  | some l => l.foldl metadataStep metadata
  | none => metadata

/-- The list of codes "with duplicates removed, each code kept at the position
of its first occurrence", written from these words and not from the code. -/
def firstOccurrences : List Code → List Code
  | [] => []
  | x :: xs => x :: (firstOccurrences xs).filter (fun y => decide (y ≠ x))

/-- Six issues with the typeCodes `[1,1,2,3,3,3]` and three distinct codes. -/
def sixIssues : List Issue :=
  [⟨"a", "", "", "", "error", 1⟩, ⟨"b", "", "", "", "error", 1⟩,
   ⟨"a", "", "", "", "warning", 2⟩, ⟨"c", "", "", "", "notice", 3⟩,
   ⟨"b", "", "", "", "notice", 3⟩, ⟨"c", "", "", "", "notice", 3⟩]

/-! ## Reporting-API write calls

Each call is one request; the promise it returns is settled by the `end`
callback, so the call is a function of the response. -/

/-- The function `createIssue`: `resolve(response.body)`. -/
def createIssue (response : Response Body) : Except Err Body :=
  .ok response.body

/-- The function `createUrl`:
`if (response.statusType === 2) resolve(response.body); else reject(response.error)`. -/
def createUrl (response : Response Body) : Except Err Body :=
  if response.statusType = some 2 then .ok response.body else .error response.error

/-- The function `updateReport`, same `end` callback as `createUrl`. -/
def updateReport (response : Response Body) : Except Err Body :=
  if response.statusType = some 2 then .ok response.body else .error response.error

/-- The function `postJobToWorker`: resolves with the issue list of the body. -/
def postJobToWorker (response : Response (List Issue)) : Except Err (List Issue) :=
  if response.statusType = some 2 then .ok response.body else .error response.error

/-- The combinator `Promise.all` over promises that are all settled: the first
rejection, or the list of values. -/
def promiseAll {α : Type} : List (Except Err α) → Except Err (List α)
  | [] => .ok []
  | .error e :: _ => .error e
  | .ok v :: rest =>
    match promiseAll rest with
    | .ok vs => .ok (v :: vs)
    | .error e => .error e

/-- The function `postIssues`: `Promise.all` of one `createIssue` per issue. -/
def postIssues (responses : List (Response Body)) : Except Err (List Body) :=
  promiseAll (responses.map createIssue)

/-! ## Promises -/

/-- The state of a promise: settled at most once, the first settlement wins. -/
inductive PState (α : Type) where
  | pending : PState α
  | resolved (v : α) : PState α
  | rejected (e : Err) : PState α
  deriving DecidableEq, Repr

/-- Calling `resolve(v)` on a promise. -/
def PState.resolve {α : Type} : PState α → α → PState α
  | .pending, v => .resolved v
  | p, _ => p

/-- Calling `reject(e)` on a promise. -/
def PState.reject {α : Type} : PState α → Err → PState α
  | .pending, e => .rejected e
  | p, _ => p

/-! ## The dispatch engine `queueJobs` -/

/-- The report record returned by `createReport`, as `queueJobs` reads it. -/
structure Report where
  id : String
  urls : List Url
  deriving DecidableEq, Repr

/-- The `settings` object handed to `queueJobs`. -/
structure Settings where
  token : String
  apiUrl : String
  workerUrl : String
  concurrency : Nat
  report : Report
  deriving DecidableEq, Repr

/-- The `changes` object sent by `updateReport`.  The progress is the exact
quotient `completed / urls.length`. -/
structure Changes where
  progress : ℚ
  codes : List Code
  deriving DecidableEq, Repr

/-- A write call issued by the success callback of `queueJobs`. -/
inductive Write where
  | postIssues (url : Url) (issues : List Issue) : Write
  | createUrl (record : UrlRecord) : Write
  | updateReport (changes : Changes) : Write
  deriving DecidableEq, Repr

/-- A callback deferred by the queue with `setImmediate`. -/
inductive Immediate where
  | process : Immediate
  | drain : Immediate
  deriving DecidableEq, Repr

/-- The variables of one `queueJobs` call: the closure variables `error`,
`completed`, `codes`, the promise, the queue's task list and running workers,
and the log of what was sent out. -/
structure State where
  /-- the queue's pending tasks, front first -/
  tasks : List Url
  /-- URLs handed to `postJobToWorker` whose `done` was not called yet -/
  running : List Url
  /-- callbacks deferred with `setImmediate`, oldest first -/
  immediates : List Immediate
  completed : Nat
  codes : List Code
  error : Bool
  /-- the promise returned by `queueJobs` -/
  promise : PState Unit
  /-- every write call issued so far, in call order -/
  calls : List Write
  /-- positions in `calls` whose response has arrived -/
  answered : List Nat
  /-- every error passed to `onError`, in order -/
  errors : List Err
  /-- every URL handed to `postJobToWorker`, in order -/
  dispatched : List Url
  deriving DecidableEq, Repr

/-- What the environment can deliver to the engine. -/
inductive Event where
  /-- the oldest deferred callback runs -/
  | tick : Event
  /-- the worker answers for a URL in flight -/
  | workerDone (url : Url) (response : Response (List Issue)) : Event
  /-- the reporting API answers the write call at position `i` of `calls`;
  a `postIssues` call gets one response per issue -/
  | writeDone (i : Nat) (responses : List (Response Body)) : Event
  deriving DecidableEq, Repr

/-- The closure `onError`: `error = true; reject(err)`. -/
def onError (s : State) (err : Err) : State :=
  { s with error := true, promise := s.promise.reject err, errors := s.errors ++ [err] }

/-- The handler `queue.drain`: `if (!error) resolve()`. -/
def drain (s : State) : State :=
  if s.error then s else { s with promise := s.promise.resolve () }

/-- Modelled from the spec: the idle test of the queue, which is not part of
the sources: "the pending sequence is empty and no worker is in flight". -/
def idle (s : State) : Bool :=
  s.tasks.isEmpty && s.running.isEmpty

/-- Modelled from the spec: the scheduler of the `async` queue, which is not
part of the sources.  "Each worker pulls the next pending URL" with "no more
than concurrency URLs in flight at once": while a slot is free and a task is
pending, the front task is shifted off and handed to the worker function, which
calls `postJobToWorker`. -/
def processLoop (c : Nat) : List Url → State → State
  | [], s => { s with tasks := [] }
  | u :: rest, s =>
    if s.running.length < c then
      processLoop c rest
        { s with running := s.running ++ [u], dispatched := s.dispatched ++ [u] }
    else { s with tasks := u :: rest }

/-- Modelled from the spec: one run of the queue's `process` (see `processLoop`). -/
def process (c : Nat) (s : State) : State :=
  processLoop c s.tasks s

/-- Modelled from the spec: the queue's `push`, which is not part of the
sources.  The tasks go to the back of the pending sequence and a `process` is
deferred; pushing nothing on an idle queue defers a `drain`, since the engine
"resolves successfully once the pending sequence is empty and no worker is in
flight". -/
def push (s : State) (data : List Url) : State :=
  if data.isEmpty && idle s then { s with immediates := s.immediates ++ [.drain] }
  else { s with tasks := s.tasks ++ data, immediates := s.immediates ++ [.process] }

/-- Modelled from the spec: the callback `done` the queue gives to the worker
function, which is not part of the sources.  The slot is released, `drain` is
called "once the pending sequence is empty and no worker is in flight", and the
next pending URLs are pulled. -/
def done (c : Nat) (s : State) (url : Url) : State :=
  let s1 := { s with running := s.running.erase url }
  process c (if idle s1 then drain s1 else s1)

/-- The closure `requeue`: `queue.push(url)`. -/
def requeue (s : State) (url : Url) : State :=
  push s [url]

/-- The `then` callback of the worker call: the three write calls are issued
(`postIssues`, `createUrl` with the metadata, `updateReport` with
`++completed / urls.length` and the merged codes), then `done()`. -/
def onWorkerSuccess (cfg : Settings) (s : State) (url : Url) (issues : List Issue) :
    State :=
  let completed := s.completed + 1
  let codes := addCodesFromIssues s.codes issues
  let changes : Changes :=
    { progress := (completed : ℚ) / (cfg.report.urls.length : ℚ), codes := codes }
  done cfg.concurrency
    { s with
      completed := completed
      codes := codes
      calls := s.calls ++
        [Write.postIssues url issues,
         Write.createUrl (getIssuesMetadata cfg.report.id url (some issues)),
         Write.updateReport changes] }
    url

/-- The `catch` callback of the worker call: `requeue(url); done()`. -/
def onWorkerFailure (cfg : Settings) (s : State) (url : Url) : State :=
  done cfg.concurrency (requeue s url) url

/-- The handler `.then(null, onError)` attached to each write call. -/
def settleWrite (s : State) (i : Nat) (outcome : Except Err Unit) : State :=
  let s1 := { s with answered := i :: s.answered }
  match outcome with
  | .ok _ => s1
  | .error e => onError s1 e

/-- The outcome of a write call once its responses are in; `none` when the
responses do not fit the call. -/
def writeOutcome : Write → List (Response Body) → Option (Except Err Unit)
  | .postIssues _ issues, responses =>
    if responses.length = issues.length then
      some ((postIssues responses).map (fun _ => ()))
    else none
  | .createUrl _, [response] => some ((createUrl response).map (fun _ => ()))
  | .updateReport _, [response] => some ((updateReport response).map (fun _ => ()))
  | _, _ => none

/-- One callback of the engine.  `none` when the event cannot happen in `s`. -/
def step (cfg : Settings) (s : State) : Event → Option State
  | .tick =>
    match s.immediates with
    | [] => none
    | .process :: rest => some (process cfg.concurrency { s with immediates := rest })
    | .drain :: rest => some (drain { s with immediates := rest })
  | .workerDone url response =>
    if url ∈ s.running then
      match postJobToWorker response with
      | .ok issues => some (onWorkerSuccess cfg s url issues)
      | .error _ => some (onWorkerFailure cfg s url)
    else none
  | .writeDone i responses =>
    if i ∈ s.answered then none
    else
      match s.calls[i]? with
      | none => none
      | some w => (writeOutcome w responses).map (settleWrite s i)

/-- The state when the `queueJobs` executor returns: fresh variables, then
`queue.push(settings.report.urls)`. -/
def init (cfg : Settings) : State :=
  push
    { tasks := [], running := [], immediates := [], completed := 0, codes := [],
      error := false, promise := .pending, calls := [], answered := [], errors := [],
      dispatched := [] }
    cfg.report.urls

/-- The state after a sequence of events, `none` when one of them cannot happen. -/
def runFrom (cfg : Settings) : State → List Event → Option State
  | s, [] => some s
  | s, e :: es => (step cfg s e).bind (fun s1 => runFrom cfg s1 es)

/-- The state of `queueJobs` after the events `evs`. -/
def queueJobs (cfg : Settings) (evs : List Event) : Option State :=
  runFrom cfg (init cfg) evs

/-- The `changes` sent by `updateReport`, in call order. -/
def updates (s : State) : List Changes :=
  s.calls.filterMap (fun w => match w with | .updateReport ch => some ch | _ => none)

/-- The successful worker responses so far: URL and issue list, in order. -/
def succeeded (s : State) : List (Url × List Issue) :=
  s.calls.filterMap (fun w => match w with | .postIssues u is => some (u, is) | _ => none)

/-- The queue is drained: nothing pending, nothing in flight. -/
def drained (s : State) : Prop :=
  s.tasks = [] ∧ s.running = []

instance (s : State) : Decidable (drained s) := by
  unfold drained; infer_instance

/-! ## `createReport` and `runOnList` -/

/-- The body `{rootUrl, standard, urls}` that `runOnList` sends to
`createReport`; `rootUrl` is `urls[0]`. -/
structure ReportRequest where
  rootUrl : Option Url
  standard : String
  urls : List Url
  deriving DecidableEq, Repr

/-- The function `createReport`: on a 2xx response it resolves with the
settings in which `report` is `response.body`, otherwise
`reject(response.error)`.  The request body is only sent. -/
def createReport (token apiUrl workerUrl : String) (concurrency : Nat)
    (_report : ReportRequest) (response : Response Report) : Except Err Settings :=
  if response.statusType = some 2 then
    .ok { token := token, apiUrl := apiUrl, workerUrl := workerUrl,
          concurrency := concurrency, report := response.body }
  else .error response.error

/-- The function `runOnList`, as the final state of the promise it returns.
`response` answers `createReport`; `dispatch` is the state in which the promise
of `queueJobs` ends up for the settings it is given.  The chain is
`createReport(..).then(resolve report).catch(reject).then(queueJobs).catch(reject)`;
after a failed `createReport` the first `catch` passes `undefined` on and
`queueJobs(undefined)` throws in its executor. -/
def runOnList (token apiUrl workerUrl : String) (concurrency : Nat) (urls : List Url)
    (response : Response Report) (dispatch : Settings → PState Unit) : PState Report :=
  let outer : PState Report := .pending
  let request : ReportRequest :=
    { rootUrl := urls.head?, standard := "WCAG2AA", urls := urls }
  -- createReport(..).then(function (settings) { resolve(settings.report); return settings; })
  let (outer, p1) : PState Report × Except Err Settings :=
    match createReport token apiUrl workerUrl concurrency request response with
    | .ok st => (outer.resolve st.report, .ok st)
    | .error e => (outer, .error e)
  -- .catch(reject)
  let (outer, p2) : PState Report × Option Settings :=
    match p1 with
    | .ok st => (outer, some st)
    | .error e => (outer.reject e, none)
  -- .then(_this.queueJobs.bind(_this))
  let p3 : PState Unit :=
    match p2 with
    | some st => dispatch st
    | none => .rejected "TypeError: cannot read property concurrency of undefined"
  -- .catch(reject)
  match p3 with
  | .rejected e => outer.reject e
  | _ => outer

/-! ## Concrete runs -/

/-- A report of two URLs dispatched with one worker. -/
def cfgTwo : Settings :=
  { token := "t", apiUrl := "api", workerUrl := "worker", concurrency := 1,
    report := { id := "r1", urls := ["u1", "u2"] } }

/-- A report of three URLs dispatched with two workers. -/
def cfgThree : Settings :=
  { token := "t", apiUrl := "api", workerUrl := "worker", concurrency := 2,
    report := { id := "r2", urls := ["u1", "u2", "u3"] } }

/-- A report of one URL dispatched with one worker. -/
def cfgOne : Settings :=
  { token := "t", apiUrl := "api", workerUrl := "worker", concurrency := 1,
    report := { id := "r3", urls := ["u"] } }

/-- A successful worker response carrying `issues`. -/
def workerOk (issues : List Issue) : Response (List Issue) :=
  { statusType := some 2, body := issues, error := "" }

/-- A failed worker response (a 5xx status). -/
def workerFail : Response (List Issue) :=
  { statusType := some 5, body := [], error := "worker down" }

/-- A failed reporting-API response (a 5xx status). -/
def apiFail : Response Body :=
  { statusType := some 5, body := "", error := "api down" }

/-- A run over `cfgTwo`: `u1` succeeds, `u2` fails once and then succeeds. -/
def runTwo : List Event :=
  [.tick, .workerDone "u1" (workerOk [⟨"a", "", "", "", "error", 1⟩]),
   .workerDone "u2" workerFail, .tick,
   .workerDone "u2" (workerOk [⟨"a", "", "", "", "error", 1⟩, ⟨"b", "", "", "", "notice", 3⟩])]

/-- A run over `cfgThree`: `u1` fails and is re-enqueued while `u2` is in
flight and `u3` is pending. -/
def runThree : List Event :=
  [.tick, .workerDone "u1" workerFail]

/-- A run over `cfgOne`: the only URL succeeds, then the `updateReport` issued
for it (position 2 of the calls) is answered with a failure. -/
def runOneLate : List Event :=
  [.tick, .workerDone "u" (workerOk []), .writeDone 2 [apiFail]]

/-- A run over `cfgTwo`: `u1` succeeds and its `createUrl` (position 1 of the
calls) is answered with a failure while `u2` is still in flight. -/
def runTwoRejected : List Event :=
  [.tick, .workerDone "u1" (workerOk []), .writeDone 1 [apiFail]]

/-- The invariant of the engine that the claims rest on: every URL of the
report is accounted for exactly once (succeeded, in flight or pending), the
updates sent are `1/n, 2/n, ..` in this order, the last one carries the
accumulated codes, and the pool is never over its limit. -/
structure Inv (cfg : Settings) (s : State) : Prop where
  perm : ((succeeded s).map Prod.fst ++ (s.running ++ s.tasks)).Perm cfg.report.urls
  lenU : (updates s).length = s.completed
  lenS : (succeeded s).length = s.completed
  prog : (updates s).map Changes.progress =
    (List.range s.completed).map
      (fun k => ((k + 1 : ℕ) : ℚ) / (cfg.report.urls.length : ℚ))
  last : ∀ u, (updates s).getLast? = some u → u.codes = s.codes
  nodup : s.codes.Nodup
  mem : ∀ c, c ∈ s.codes ↔ ∃ p ∈ succeeded s, ∃ i ∈ p.2, i.code = c
  run_le : s.running.length ≤ cfg.concurrency
  sat : s.running ≠ [] → s.tasks = [] ∨ s.running.length = cfg.concurrency

/-- A run over `cfgOne` in which the worker call for the only URL fails three
times in a row. -/
def runStuck : List Event :=
  [.tick, .workerDone "u" workerFail, .workerDone "u" workerFail, .tick,
   .workerDone "u" workerFail]

/-! ## What the worker answered

The successful worker responses of a run, read off the events delivered to the
engine and not off anything the engine wrote down. -/

/-- A worker response "with a success status" (status type 2): the URL it
answers and the issue list of its body; nothing for any other event. -/
def okOf : Event → Option (Url × List Issue)
  | .workerDone url response =>
    if response.statusType = some 2 then some (url, response.body) else none
  | _ => none

/-- The successful worker responses among the events `evs`, in order of
arrival: URL and issues returned. -/
def answeredOk (evs : List Event) : List (Url × List Issue) :=
  evs.filterMap okOf

/-! ## Code lists -/

theorem pushCode_isPrefix (codes : List Code) (i : Issue) : codes <+: pushCode codes i := by
  unfold pushCode
  split
  · exact List.prefix_refl _
  · exact List.prefix_append _ _

theorem addCodes_isPrefix (issues : List Issue) :
    ∀ codes : List Code, codes <+: addCodesFromIssues codes issues := by
  induction issues with
  | nil => intro codes; exact List.prefix_refl _
  | cons i rest ih =>
    intro codes
    exact (pushCode_isPrefix codes i).trans (ih (pushCode codes i))

theorem mem_pushCode (codes : List Code) (i : Issue) (c : Code) :
    c ∈ pushCode codes i ↔ c ∈ codes ∨ c = i.code := by
  unfold pushCode
  split
  · constructor
    · intro h; exact Or.inl h
    · rintro (h | h)
      · exact h
      · subst h; assumption
  · simp

theorem mem_addCodes (issues : List Issue) :
    ∀ (codes : List Code) (c : Code),
      c ∈ addCodesFromIssues codes issues ↔ c ∈ codes ∨ ∃ i ∈ issues, i.code = c := by
  induction issues with
  | nil => intro codes c; simp [addCodesFromIssues]
  | cons i rest ih =>
    intro codes c
    have h := ih (pushCode codes i) c
    simp only [addCodesFromIssues, List.foldl_cons] at h ⊢
    rw [h, mem_pushCode]
    constructor
    · rintro ((h1 | h1) | ⟨j, hj, hc⟩)
      · exact Or.inl h1
      · exact Or.inr ⟨i, List.mem_cons_self _ _, h1.symm⟩
      · exact Or.inr ⟨j, List.mem_cons_of_mem _ hj, hc⟩
    · rintro (h1 | ⟨j, hj, hc⟩)
      · exact Or.inl (Or.inl h1)
      · rcases List.mem_cons.mp hj with rfl | hj
        · exact Or.inl (Or.inr hc.symm)
        · exact Or.inr ⟨j, hj, hc⟩

theorem nodup_pushCode (codes : List Code) (i : Issue) (h : codes.Nodup) :
    (pushCode codes i).Nodup := by
  unfold pushCode
  split
  · exact h
  · rename_i hn
    rw [List.nodup_append]
    refine ⟨h, List.nodup_singleton _, ?_⟩
    intro a ha hb
    rw [List.mem_singleton] at hb
    subst hb
    exact hn ha

theorem nodup_addCodes (issues : List Issue) :
    ∀ codes : List Code, codes.Nodup → (addCodesFromIssues codes issues).Nodup := by
  induction issues with
  | nil => intro codes h; exact h
  | cons i rest ih =>
    intro codes h
    exact ih (pushCode codes i) (nodup_pushCode codes i h)

theorem addCodes_of_forall_mem (issues : List Issue) :
    ∀ codes : List Code, (∀ i ∈ issues, i.code ∈ codes) →
      addCodesFromIssues codes issues = codes := by
  induction issues with
  | nil => intro codes _; rfl
  | cons i rest ih =>
    intro codes h
    have hi : i.code ∈ codes := h i (List.mem_cons_self _ _)
    have hp : pushCode codes i = codes := by simp [pushCode, hi]
    simp only [addCodesFromIssues, List.foldl_cons, hp]
    exact ih codes (fun j hj => h j (List.mem_cons_of_mem _ hj))

theorem addCodes_eq_firstOccurrences (issues : List Issue) :
    ∀ codes : List Code,
      addCodesFromIssues codes issues =
        codes ++ (firstOccurrences (issues.map Issue.code)).filter
          (fun y => decide (y ∉ codes)) := by
  induction issues with
  | nil => intro codes; simp [addCodesFromIssues, firstOccurrences]
  | cons i rest ih =>
    intro codes
    have h := ih (pushCode codes i)
    simp only [addCodesFromIssues, List.foldl_cons] at h ⊢
    rw [h]
    simp only [List.map_cons, firstOccurrences]
    by_cases hi : i.code ∈ codes
    · have hp : pushCode codes i = codes := by simp [pushCode, hi]
      rw [hp, List.filter_cons_of_neg (by simpa using hi), List.filter_filter]
      congr 1
      apply List.filter_congr
      intro y _
      by_cases hy : y ∈ codes
      · simp [hy]
      · have : y ≠ i.code := fun e => hy (e ▸ hi)
        simp [hy, this]
    · have hp : pushCode codes i = codes ++ [i.code] := by simp [pushCode, hi]
      rw [hp, List.filter_cons_of_pos (by simpa using hi), List.filter_filter,
        List.append_assoc, List.singleton_append]
      congr 2
      apply List.filter_congr
      intro y _
      by_cases hy : y ∈ codes
      · simp [hy]
      · by_cases hy2 : y = i.code
        · simp [hy2]
        · simp [hy, hy2]

theorem foldl_metadataStep (issues : List Issue) :
    ∀ m : UrlRecord,
      issues.foldl metadataStep m =
        { reportId := m.reportId, url := m.url,
          codes := addCodesFromIssues m.codes issues,
          nErrors := m.nErrors + issues.countP (fun i => decide (i.typeCode = 1)),
          nWarnings := m.nWarnings + issues.countP (fun i => decide (i.typeCode = 2)),
          nNotices := m.nNotices + issues.countP (fun i => decide (i.typeCode = 3)) } := by
  induction issues with
  | nil => intro m; simp [addCodesFromIssues]
  | cons i rest ih =>
    intro m
    rw [List.foldl_cons, ih]
    simp only [addCodesFromIssues, List.foldl_cons, List.countP_cons]
    unfold metadataStep
    by_cases h1 : i.typeCode = 1
    · simp [h1]; omega
    · by_cases h2 : i.typeCode = 2
      · simp [h2]; omega
      · by_cases h3 : i.typeCode = 3
        · simp [h3]; omega
        · simp [h1, h2, h3]

theorem countP_typeCodes (issues : List Issue) :
    issues.countP (fun i => decide (i.typeCode = 1 ∨ i.typeCode = 2 ∨ i.typeCode = 3)) =
      issues.countP (fun i => decide (i.typeCode = 1)) +
        issues.countP (fun i => decide (i.typeCode = 2)) +
        issues.countP (fun i => decide (i.typeCode = 3)) := by
  induction issues with
  | nil => rfl
  | cons i rest ih =>
    simp only [List.countP_cons, ih]
    by_cases h1 : i.typeCode = 1
    · simp [h1]; omega
    · by_cases h2 : i.typeCode = 2
      · simp [h2]; omega
      · by_cases h3 : i.typeCode = 3
        · simp [h3]; omega
        · simp [h1, h2, h3]

/-- C1: `getIssuesMetadata` keeps `reportId` and `url`, counts the issues with
typeCode 1, 2 and 3 in `nErrors`, `nWarnings` and `nNotices` (any other typeCode
adds to no counter, so the three counts sum to the issues with typeCode 1, 2 or
3), and lists the distinct codes in the order of their first occurrence; issues
with typeCodes `[1,1,2,3,3,3]` give the counts 2, 1 and 3. -/
theorem getIssuesMetadata_spec (reportId : String) (url : Url) (issues : List Issue) :
    let m := getIssuesMetadata reportId url (some issues)
    m.reportId = reportId ∧ m.url = url ∧
    m.nErrors = issues.countP (fun i => decide (i.typeCode = 1)) ∧
    m.nWarnings = issues.countP (fun i => decide (i.typeCode = 2)) ∧
    m.nNotices = issues.countP (fun i => decide (i.typeCode = 3)) ∧
    m.nErrors + m.nWarnings + m.nNotices =
      issues.countP (fun i =>
        decide (i.typeCode = 1 ∨ i.typeCode = 2 ∨ i.typeCode = 3)) ∧
    m.codes = firstOccurrences (issues.map Issue.code) ∧
    m.codes.Nodup ∧
    (∀ c, c ∈ m.codes ↔ c ∈ issues.map Issue.code) ∧
    (issues.map Issue.typeCode = [1, 1, 2, 3, 3, 3] →
      m.nErrors = 2 ∧ m.nWarnings = 1 ∧ m.nNotices = 3) := by
  have hfold := foldl_metadataStep issues
    { reportId := reportId, url := url, codes := [], nErrors := 0, nWarnings := 0,
      nNotices := 0 }
  have hcodes := addCodes_eq_firstOccurrences issues []
  have hcount : ∀ (k : Int), issues.countP (fun i => decide (i.typeCode = k)) =
      (issues.map Issue.typeCode).countP (fun t => decide (t = k)) := by
    intro k
    rw [List.countP_map]
    rfl
  simp only [getIssuesMetadata, hfold, Nat.zero_add]
  refine ⟨trivial, trivial, trivial, trivial, trivial, (countP_typeCodes issues).symm, ?_, ?_, ?_, ?_⟩
  · rw [hcodes]; simp
  · exact nodup_addCodes issues [] List.nodup_nil
  · intro c
    rw [mem_addCodes]
    simp
  · intro h
    rw [hcount 1, hcount 2, hcount 3, h]
    decide

/-- C1, at six concrete issues with typeCodes `[1,1,2,3,3,3]`. -/
theorem getIssuesMetadata_spec_witness :
    (sixIssues.map Issue.typeCode = [1, 1, 2, 3, 3, 3]) ∧
    (getIssuesMetadata "r" "u" (some sixIssues)).nErrors = 2 ∧
    (getIssuesMetadata "r" "u" (some sixIssues)).nWarnings = 1 ∧
    (getIssuesMetadata "r" "u" (some sixIssues)).nNotices = 3 :=
  ⟨by decide, (getIssuesMetadata_spec "r" "u" sixIssues).2.2.2.2.2.2.2.2.2 (by decide)⟩

/-- C4: merging the same issue list a second time changes nothing, and the
codes accumulated before a merge are kept as the front part of its result. -/
theorem addCodesFromIssues_idempotent (codes : List Code) (issues : List Issue) :
    addCodesFromIssues (addCodesFromIssues codes issues) issues =
        addCodesFromIssues codes issues ∧
    codes <+: addCodesFromIssues codes issues ∧
    (∀ c ∈ codes, c ∈ addCodesFromIssues codes issues) := by
  refine ⟨?_, addCodes_isPrefix issues codes, ?_⟩
  · apply addCodes_of_forall_mem
    intro i hi
    rw [mem_addCodes]
    exact Or.inr ⟨i, hi, rfl⟩
  · intro c hc
    exact (addCodes_isPrefix issues codes).subset hc

/-! ## The engine: closed forms of the callbacks -/

theorem processLoop_eq (c : Nat) :
    ∀ (l : List Url) (s : State),
      processLoop c l s =
        { s with
          tasks := l.drop (c - s.running.length)
          running := s.running ++ l.take (c - s.running.length)
          dispatched := s.dispatched ++ l.take (c - s.running.length) } := by
  intro l
  induction l with
  | nil => intro s; simp [processLoop]
  | cons u rest ih =>
    intro s
    unfold processLoop
    by_cases h : s.running.length < c
    · rw [if_pos h, ih]
      obtain ⟨k, hk⟩ : ∃ k, c - s.running.length = k + 1 := ⟨c - s.running.length - 1, by omega⟩
      have hk2 : c - (s.running ++ [u]).length = k := by
        simp only [List.length_append, List.length_singleton]; omega
      simp only [hk, hk2, List.drop_succ_cons, List.take_succ_cons, List.append_assoc,
        List.singleton_append]
    · rw [if_neg h]
      have hk : c - s.running.length = 0 := by omega
      simp [hk]

theorem process_eq (c : Nat) (s : State) :
    process c s =
      { s with
        tasks := s.tasks.drop (c - s.running.length)
        running := s.running ++ s.tasks.take (c - s.running.length)
        dispatched := s.dispatched ++ s.tasks.take (c - s.running.length) } :=
  processLoop_eq c s.tasks s

theorem drain_eq (s : State) :
    drain s = { s with promise := if s.error then s.promise else s.promise.resolve () } := by
  unfold drain
  split <;> rfl

theorem done_eq (c : Nat) (s : State) (u : Url) :
    done c s u =
      { s with
        tasks := s.tasks.drop (c - (s.running.erase u).length)
        running := s.running.erase u ++ s.tasks.take (c - (s.running.erase u).length)
        dispatched := s.dispatched ++ s.tasks.take (c - (s.running.erase u).length)
        promise :=
          if s.tasks = [] ∧ s.running.erase u = [] ∧ s.error = false
          then s.promise.resolve () else s.promise } := by
  unfold done
  simp only [idle, process_eq, drain_eq]
  by_cases ht : s.tasks = [] <;> by_cases hr : s.running.erase u = [] <;>
    cases he : s.error <;> simp [ht, hr, he]

theorem requeue_eq (s : State) (u : Url) :
    requeue s u =
      { s with tasks := s.tasks ++ [u], immediates := s.immediates ++ [.process] } := by
  simp [requeue, push]

theorem step_cases {cfg : Settings} {s s1 : State} {e : Event}
    (h : step cfg s e = some s1) :
    (e = .tick ∧ ∃ rest, s.immediates = .process :: rest ∧
        s1 = process cfg.concurrency { s with immediates := rest }) ∨
    (e = .tick ∧ ∃ rest, s.immediates = .drain :: rest ∧
        s1 = drain { s with immediates := rest }) ∨
    (∃ u r issues, e = .workerDone u r ∧ u ∈ s.running ∧
        postJobToWorker r = .ok issues ∧ s1 = onWorkerSuccess cfg s u issues) ∨
    (∃ u r err, e = .workerDone u r ∧ u ∈ s.running ∧
        postJobToWorker r = .error err ∧ s1 = onWorkerFailure cfg s u) ∨
    (∃ i rs w o, e = .writeDone i rs ∧ i ∉ s.answered ∧ s.calls[i]? = some w ∧
        writeOutcome w rs = some o ∧ s1 = settleWrite s i o) := by
  cases e with
  | tick =>
    simp only [step] at h
    split at h
    · cases h
    · rename_i rest hi
      exact Or.inl ⟨rfl, rest, hi, (Option.some.inj h).symm⟩
    · rename_i rest hi
      exact Or.inr (Or.inl ⟨rfl, rest, hi, (Option.some.inj h).symm⟩)
  | workerDone u r =>
    simp only [step] at h
    split at h
    · rename_i hu
      split at h
      · rename_i issues hp
        exact Or.inr (Or.inr (Or.inl ⟨u, r, issues, rfl, hu, hp, (Option.some.inj h).symm⟩))
      · rename_i err hp
        exact Or.inr (Or.inr (Or.inr (Or.inl
          ⟨u, r, err, rfl, hu, hp, (Option.some.inj h).symm⟩)))
    · cases h
  | writeDone i rs =>
    simp only [step] at h
    split at h
    · cases h
    · rename_i hi
      split at h
      · cases h
      · rename_i w hw
        rcases ho : writeOutcome w rs with _ | o
        · rw [ho] at h; cases h
        · rw [ho] at h
          exact Or.inr (Or.inr (Or.inr (Or.inr
            ⟨i, rs, w, o, rfl, hi, hw, ho, (Option.some.inj h).symm⟩)))

theorem runFrom_induction (cfg : Settings) (P : State → Prop) (E : Event → Prop)
    (hstep : ∀ s e s1, E e → P s → step cfg s e = some s1 → P s1) :
    ∀ (evs : List Event) (s s1 : State),
      (∀ e ∈ evs, E e) → P s → runFrom cfg s evs = some s1 → P s1 := by
  intro evs
  induction evs with
  | nil =>
    intro s s1 _ hP h
    simp only [runFrom, Option.some.injEq] at h
    exact h ▸ hP
  | cons e es ih =>
    intro s s1 hE hP h
    simp only [runFrom] at h
    rcases hs : step cfg s e with _ | s2
    · rw [hs] at h; cases h
    · rw [hs] at h
      exact ih s2 s1 (fun e1 he1 => hE e1 (List.mem_cons_of_mem _ he1))
        (hstep s e s2 (hE e (List.mem_cons_self _ _)) hP hs) h

/-! ## The engine: invariant -/

theorem updates_append (s : State) (l : List Write) :
    updates { s with calls := s.calls ++ l } =
      updates s ++ l.filterMap
        (fun w => match w with | .updateReport ch => some ch | _ => none) := by
  simp [updates, List.filterMap_append]

theorem take_drop_sat (c : Nat) (running tasks : List Url) (h : running.length ≤ c) :
    (running ++ tasks.take (c - running.length)).length ≤ c ∧
    (tasks.drop (c - running.length) = [] ∨
      (running ++ tasks.take (c - running.length)).length = c) := by
  simp only [List.length_append, List.length_take, List.drop_eq_nil_iff]
  omega

theorem inv_init (cfg : Settings) : Inv cfg (init cfg) := by
  have hi : (init cfg).calls = [] ∧ (init cfg).running = [] ∧
      (init cfg).tasks = cfg.report.urls ∧ (init cfg).completed = 0 ∧
      (init cfg).codes = [] := by
    unfold init push
    split <;> rename_i h
    · simp [idle] at h
      simp [h]
    · simp
  obtain ⟨h1, h2, h3, h4, h5⟩ := hi
  constructor <;> simp [updates, succeeded, h1, h2, h3, h4, h5]

theorem inv_process (cfg : Settings) (s : State) (rest : List Immediate)
    (h : Inv cfg s) : Inv cfg (process cfg.concurrency { s with immediates := rest }) := by
  rw [process_eq]
  obtain ⟨h1, h2, h3, h4, h5, h6, h7, h8, h9⟩ := h
  have hs := take_drop_sat cfg.concurrency s.running s.tasks h8
  constructor
  · simpa [succeeded, List.append_assoc] using h1
  · simpa [updates] using h2
  · simpa [succeeded] using h3
  · simpa [updates] using h4
  · simpa [updates] using h5
  · simpa using h6
  · simpa [succeeded] using h7
  · exact hs.1
  · intro _; exact hs.2

theorem inv_drain (cfg : Settings) (s : State) (rest : List Immediate)
    (h : Inv cfg s) : Inv cfg (drain { s with immediates := rest }) := by
  rw [drain_eq]
  obtain ⟨h1, h2, h3, h4, h5, h6, h7, h8, h9⟩ := h
  constructor
  · simpa [succeeded] using h1
  · simpa [updates] using h2
  · simpa [succeeded] using h3
  · simpa [updates] using h4
  · simpa [updates] using h5
  · simpa using h6
  · simpa [succeeded] using h7
  · simpa using h8
  · simpa using h9

theorem inv_settleWrite (cfg : Settings) (s : State) (i : Nat) (o : Except Err Unit)
    (h : Inv cfg s) : Inv cfg (settleWrite s i o) := by
  obtain ⟨h1, h2, h3, h4, h5, h6, h7, h8, h9⟩ := h
  cases o with
  | ok v =>
    constructor
    · simpa [settleWrite, succeeded] using h1
    · simpa [settleWrite, updates] using h2
    · simpa [settleWrite, succeeded] using h3
    · simpa [settleWrite, updates] using h4
    · simpa [settleWrite, updates] using h5
    · simpa [settleWrite] using h6
    · simpa [settleWrite, succeeded] using h7
    · simpa [settleWrite] using h8
    · simpa [settleWrite] using h9
  | error e =>
    constructor
    · simpa [settleWrite, onError, succeeded] using h1
    · simpa [settleWrite, onError, updates] using h2
    · simpa [settleWrite, onError, succeeded] using h3
    · simpa [settleWrite, onError, updates] using h4
    · simpa [settleWrite, onError, updates] using h5
    · simpa [settleWrite, onError] using h6
    · simpa [settleWrite, onError, succeeded] using h7
    · simpa [settleWrite, onError] using h8
    · simpa [settleWrite, onError] using h9

theorem inv_onWorkerFailure (cfg : Settings) (s : State) (u : Url)
    (hu : u ∈ s.running) (h : Inv cfg s) : Inv cfg (onWorkerFailure cfg s u) := by
  unfold onWorkerFailure
  rw [done_eq, requeue_eq]
  obtain ⟨h1, h2, h3, h4, h5, h6, h7, h8, h9⟩ := h
  have hlen : (s.running.erase u).length ≤ cfg.concurrency := by
    rw [List.length_erase_of_mem hu]; omega
  have hs := take_drop_sat cfg.concurrency (s.running.erase u) (s.tasks ++ [u]) hlen
  constructor
  · simp only [succeeded, List.append_assoc, List.take_append_drop]
    refine List.Perm.trans ?_ h1
    apply List.Perm.append_left
    have hp : (s.running.erase u ++ (s.tasks ++ [u])).Perm (u :: s.running.erase u ++ s.tasks) := by
      rw [← List.append_assoc]
      exact List.perm_append_singleton _ _ |>.trans (by simp)
    refine hp.trans ?_
    exact List.Perm.append_right _ (List.perm_cons_erase hu).symm
  · simpa [updates] using h2
  · simpa [succeeded] using h3
  · simpa [updates] using h4
  · simpa [updates] using h5
  · simpa using h6
  · simpa [succeeded] using h7
  · exact hs.1
  · intro _; exact hs.2

theorem succeeded_onWorkerSuccess (cfg : Settings) (s : State) (u : Url)
    (issues : List Issue) :
    succeeded (onWorkerSuccess cfg s u issues) = succeeded s ++ [(u, issues)] := by
  unfold onWorkerSuccess
  rw [done_eq]
  simp [succeeded, List.filterMap_append]

theorem updates_onWorkerSuccess (cfg : Settings) (s : State) (u : Url)
    (issues : List Issue) :
    updates (onWorkerSuccess cfg s u issues) =
      updates s ++
        [{ progress := ((s.completed + 1 : ℕ) : ℚ) / (cfg.report.urls.length : ℚ),
           codes := addCodesFromIssues s.codes issues }] := by
  unfold onWorkerSuccess
  rw [done_eq]
  simp [updates, List.filterMap_append]

theorem fields_onWorkerSuccess (cfg : Settings) (s : State) (u : Url)
    (issues : List Issue) :
    (onWorkerSuccess cfg s u issues).completed = s.completed + 1 ∧
    (onWorkerSuccess cfg s u issues).codes = addCodesFromIssues s.codes issues ∧
    (onWorkerSuccess cfg s u issues).running =
      s.running.erase u ++ s.tasks.take (cfg.concurrency - (s.running.erase u).length) ∧
    (onWorkerSuccess cfg s u issues).tasks =
      s.tasks.drop (cfg.concurrency - (s.running.erase u).length) := by
  unfold onWorkerSuccess
  rw [done_eq]
  exact ⟨rfl, rfl, rfl, rfl⟩

theorem perm_after_done (A R T urls : List Url) (u : Url) (k : Nat) (hu : u ∈ R)
    (h : (A ++ (R ++ T)).Perm urls) :
    ((A ++ [u]) ++ ((R.erase u ++ T.take k) ++ T.drop k)).Perm urls := by
  rw [List.append_assoc, List.append_assoc, List.take_append_drop]
  refine List.Perm.trans ?_ h
  apply List.Perm.append_left
  simpa using (List.perm_cons_erase hu).symm.append_right T

theorem inv_onWorkerSuccess (cfg : Settings) (s : State) (u : Url) (issues : List Issue)
    (hu : u ∈ s.running) (h : Inv cfg s) : Inv cfg (onWorkerSuccess cfg s u issues) := by
  obtain ⟨h1, h2, h3, h4, h5, h6, h7, h8, h9⟩ := h
  have hlen : (s.running.erase u).length ≤ cfg.concurrency := by
    rw [List.length_erase_of_mem hu]; omega
  have hs := take_drop_sat cfg.concurrency (s.running.erase u) s.tasks hlen
  obtain ⟨f1, f2, f3, f4⟩ := fields_onWorkerSuccess cfg s u issues
  constructor
  · rw [succeeded_onWorkerSuccess, f3, f4, List.map_append]
    exact perm_after_done _ _ _ _ u _ hu h1
  · rw [updates_onWorkerSuccess, f1, List.length_append, h2]
    rfl
  · rw [succeeded_onWorkerSuccess, f1, List.length_append, h3]
    rfl
  · rw [updates_onWorkerSuccess, f1, List.map_append, h4, List.range_succ, List.map_append]
    rfl
  · intro ch hch
    rw [updates_onWorkerSuccess, List.getLast?_append] at hch
    simp only [List.getLast?_singleton, Option.or] at hch
    rw [f2, ← Option.some.inj hch]
  · rw [f2]
    exact nodup_addCodes issues s.codes h6
  · intro c
    rw [f2, succeeded_onWorkerSuccess, mem_addCodes, h7 c]
    constructor
    · rintro (⟨p, hp, hi⟩ | hi)
      · exact ⟨p, List.mem_append_left _ hp, hi⟩
      · exact ⟨(u, issues), List.mem_append_right _ (List.mem_singleton_self _), hi⟩
    · rintro ⟨p, hp, hi⟩
      rcases List.mem_append.mp hp with hp | hp
      · exact Or.inl ⟨p, hp, hi⟩
      · rw [List.mem_singleton] at hp
        subst hp
        exact Or.inr hi
  · rw [f3]; exact hs.1
  · intro _; rw [f3, f4]; exact hs.2

theorem inv_step (cfg : Settings) (s s1 : State) (e : Event)
    (h : Inv cfg s) (hs : step cfg s e = some s1) : Inv cfg s1 := by
  rcases step_cases hs with ⟨_, rest, _, rfl⟩ | ⟨_, rest, _, rfl⟩ |
    ⟨u, r, issues, _, hu, _, rfl⟩ | ⟨u, r, err, _, hu, _, rfl⟩ | ⟨i, rs, w, o, _, _, _, _, rfl⟩
  · exact inv_process cfg s rest h
  · exact inv_drain cfg s rest h
  · exact inv_onWorkerSuccess cfg s u issues hu h
  · exact inv_onWorkerFailure cfg s u hu h
  · exact inv_settleWrite cfg s i o h

theorem inv_queueJobs (cfg : Settings) (evs : List Event) (s : State)
    (h : queueJobs cfg evs = some s) : Inv cfg s :=
  runFrom_induction cfg (Inv cfg) (fun _ => True)
    (fun s e s1 _ hP hs => inv_step cfg s s1 e hP hs) evs (init cfg) s
    (fun _ _ => trivial) (inv_init cfg) h

/-! ## The engine: progress and codes -/

theorem inv_counts {cfg : Settings} {s : State} (h : Inv cfg s) :
    s.completed + (s.running.length + s.tasks.length) = cfg.report.urls.length := by
  have := h.perm.length_eq
  simp only [List.length_append, List.length_map, h.lenS] at this
  exact this

theorem inv_all_succeeded_iff {cfg : Settings} {s : State} (h : Inv cfg s) :
    s.completed = cfg.report.urls.length ↔
      ((succeeded s).map Prod.fst).Perm cfg.report.urls := by
  have hc := inv_counts h
  constructor
  · intro hk
    have hr : s.running = [] := List.length_eq_zero.mp (by omega)
    have ht : s.tasks = [] := List.length_eq_zero.mp (by omega)
    simpa [hr, ht] using h.perm
  · intro hp
    have := hp.length_eq
    simp only [List.length_map, h.lenS] at this
    exact this

theorem one_mem_progress_iff {cfg : Settings} {s : State} (h : Inv cfg s)
    (hne : cfg.report.urls ≠ []) :
    (1 : ℚ) ∈ (updates s).map Changes.progress ↔
      s.completed = cfg.report.urls.length := by
  have hc := inv_counts h
  have hn : 0 < cfg.report.urls.length := List.length_pos.mpr hne
  have hn0 : (cfg.report.urls.length : ℚ) ≠ 0 := by exact_mod_cast hn.ne'
  rw [h.prog, List.mem_map]
  constructor
  · rintro ⟨j, hj, he⟩
    rw [List.mem_range] at hj
    rw [div_eq_one_iff_eq hn0] at he
    have : j + 1 = cfg.report.urls.length := by exact_mod_cast he
    omega
  · intro hk
    refine ⟨cfg.report.urls.length - 1, List.mem_range.mpr (by omega), ?_⟩
    rw [div_eq_one_iff_eq hn0]
    have : cfg.report.urls.length - 1 + 1 = cfg.report.urls.length := by omega
    rw [this]

theorem succeeded_step {cfg : Settings} {s s1 : State} {e : Event}
    (hs : step cfg s e = some s1) :
    succeeded s1 = succeeded s ++ (okOf e).toList := by
  rcases step_cases hs with ⟨he, rest, _, rfl⟩ | ⟨he, rest, _, rfl⟩ |
    ⟨u, r, issues, he, _, hok, rfl⟩ | ⟨u, r, err, he, _, herr, rfl⟩ |
    ⟨i, rs, w, o, he, _, _, _, rfl⟩
  · subst he
    rw [process_eq]
    simp [succeeded, okOf]
  · subst he
    rw [drain_eq]
    simp [succeeded, okOf]
  · subst he
    rw [succeeded_onWorkerSuccess]
    unfold postJobToWorker at hok
    by_cases h2 : r.statusType = some 2
    · rw [if_pos h2] at hok
      cases hok
      simp [okOf, h2]
    · rw [if_neg h2] at hok
      cases hok
  · subst he
    unfold postJobToWorker at herr
    by_cases h2 : r.statusType = some 2
    · rw [if_pos h2] at herr
      cases herr
    · unfold onWorkerFailure
      rw [done_eq, requeue_eq]
      simp [succeeded, okOf, h2]
  · subst he
    cases o <;> simp [settleWrite, onError, succeeded, okOf]

theorem succeeded_runFrom (cfg : Settings) :
    ∀ (evs : List Event) (s s1 : State), runFrom cfg s evs = some s1 →
      succeeded s1 = succeeded s ++ answeredOk evs := by
  intro evs
  induction evs with
  | nil =>
    intro s s1 h
    simp only [runFrom, Option.some.injEq] at h
    simp [answeredOk, h]
  | cons e es ih =>
    intro s s1 h
    simp only [runFrom] at h
    rcases hs : step cfg s e with _ | s2
    · rw [hs] at h; cases h
    · rw [hs] at h
      rw [ih s2 s1 h, succeeded_step hs, List.append_assoc]
      congr 1
      cases hk : okOf e <;> simp [answeredOk, List.filterMap_cons, hk]

theorem succeeded_queueJobs (cfg : Settings) (evs : List Event) (s : State)
    (h : queueJobs cfg evs = some s) : succeeded s = answeredOk evs := by
  have h1 := succeeded_runFrom cfg evs (init cfg) s h
  have h0 : succeeded (init cfg) = [] := by
    have hc : (init cfg).calls = [] := by
      unfold init push
      split <;> rfl
    simp [succeeded, hc]
  rw [h1, h0, List.nil_append]

/-- C2: over a non-empty URL list the progress values sent to `updateReport`
are `1/n, 2/n, ..`, one for each successful worker response, in order; they
never decrease, stay between 0 and 1, and the value 1 is among them exactly
when every entry of the URL list has had a successful worker response (the
URLs answered with a success status are a rearrangement of the list; for a
list without repeats: every URL of the list is among them). -/
theorem queueJobs_progress (cfg : Settings) (evs : List Event) (s : State)
    (hne : cfg.report.urls ≠ []) (h : queueJobs cfg evs = some s) :
    (updates s).map Changes.progress =
      (List.range (answeredOk evs).length).map
        (fun k => ((k + 1 : ℕ) : ℚ) / (cfg.report.urls.length : ℚ)) ∧
    ((updates s).map Changes.progress).Sorted (· ≤ ·) ∧
    (∀ p ∈ (updates s).map Changes.progress, 0 ≤ p ∧ p ≤ 1) ∧
    ((1 : ℚ) ∈ (updates s).map Changes.progress ↔
      ((answeredOk evs).map Prod.fst).Perm cfg.report.urls) ∧
    (cfg.report.urls.Nodup →
      ((1 : ℚ) ∈ (updates s).map Changes.progress ↔
        ∀ u ∈ cfg.report.urls, u ∈ (answeredOk evs).map Prod.fst)) := by
  have hI := inv_queueJobs cfg evs s h
  have hlink := succeeded_queueJobs cfg evs s h
  have hc := inv_counts hI
  have hn : 0 < cfg.report.urls.length := List.length_pos.mpr hne
  have hnq : (0 : ℚ) < (cfg.report.urls.length : ℚ) := by exact_mod_cast hn
  rw [← hlink]
  refine ⟨?_, ?_, ?_, ?_, ?_⟩
  · rw [hI.prog, hI.lenS]
  · rw [hI.prog]
    unfold List.Sorted
    rw [List.pairwise_map]
    refine (List.pairwise_lt_range s.completed).imp ?_
    intro a b hab
    apply div_le_div_of_nonneg_right _ hnq.le
    exact_mod_cast (by omega : a + 1 ≤ b + 1)
  · intro p hp
    rw [hI.prog, List.mem_map] at hp
    obtain ⟨j, hj, rfl⟩ := hp
    rw [List.mem_range] at hj
    constructor
    · exact div_nonneg (by exact_mod_cast Nat.zero_le _) hnq.le
    · rw [div_le_one hnq]
      exact_mod_cast (by omega : j + 1 ≤ cfg.report.urls.length)
  · rw [one_mem_progress_iff hI hne, inv_all_succeeded_iff hI]
  · intro hnd
    rw [one_mem_progress_iff hI hne]
    constructor
    · intro hk u hu
      exact ((inv_all_succeeded_iff hI).mp hk).symm.subset hu
    · intro hsub
      have hle : cfg.report.urls.length ≤ ((succeeded s).map Prod.fst).length :=
        (List.subperm_of_subset hnd hsub).length_le
      simp only [List.length_map, hI.lenS] at hle
      omega

/-- C2, on the run `runTwo` over the two URLs of `cfgTwo`, in which both URLs
end with a successful worker response. -/
theorem queueJobs_progress_witness :
    ∃ s, cfgTwo.report.urls ≠ [] ∧ queueJobs cfgTwo runTwo = some s ∧
      (answeredOk runTwo).map Prod.fst = ["u1", "u2"] ∧
      (updates s).map Changes.progress =
        (List.range (answeredOk runTwo).length).map
          (fun k => ((k + 1 : ℕ) : ℚ) / (cfgTwo.report.urls.length : ℚ)) ∧
      ((updates s).map Changes.progress).Sorted (· ≤ ·) ∧
      (∀ p ∈ (updates s).map Changes.progress, 0 ≤ p ∧ p ≤ 1) ∧
      ((1 : ℚ) ∈ (updates s).map Changes.progress ↔
        ((answeredOk runTwo).map Prod.fst).Perm cfgTwo.report.urls) :=
  ⟨_, by decide, rfl, by decide,
    (queueJobs_progress cfgTwo runTwo _ (by decide) rfl).1,
    (queueJobs_progress cfgTwo runTwo _ (by decide) rfl).2.1,
    (queueJobs_progress cfgTwo runTwo _ (by decide) rfl).2.2.1,
    (queueJobs_progress cfgTwo runTwo _ (by decide) rfl).2.2.2.1⟩

/-- C3: once the queue is drained, the URLs answered with a success status are
the URLs of the report, the last report update (there is one as soon as the
report has a URL) carries progress 1 and a codes list with no code twice, and
a code is listed exactly when some issue in the body of some successful worker
response has it. -/
theorem queueJobs_drained_last_update (cfg : Settings) (evs : List Event) (s : State)
    (h : queueJobs cfg evs = some s) (hd : drained s) :
    ((answeredOk evs).map Prod.fst).Perm cfg.report.urls ∧
    (cfg.report.urls ≠ [] → ∃ ch, (updates s).getLast? = some ch) ∧
    (∀ ch, (updates s).getLast? = some ch →
      ch.progress = 1 ∧ ch.codes.Nodup ∧
      ∀ c, c ∈ ch.codes ↔ ∃ p ∈ answeredOk evs, ∃ i ∈ p.2, i.code = c) := by
  have hI := inv_queueJobs cfg evs s h
  have hlink := succeeded_queueJobs cfg evs s h
  have hc := inv_counts hI
  obtain ⟨ht, hr⟩ := hd
  have hk : s.completed = cfg.report.urls.length := by
    simp only [ht, hr, List.length_nil, Nat.add_zero] at hc
    exact hc
  rw [← hlink]
  refine ⟨(inv_all_succeeded_iff hI).mp hk, ?_, ?_⟩
  · intro hne
    have hn : 0 < cfg.report.urls.length := List.length_pos.mpr hne
    have hU : updates s ≠ [] := by
      intro he
      have := hI.lenU
      rw [he, List.length_nil] at this
      omega
    exact ⟨(updates s).getLast hU, List.getLast?_eq_getLast _ hU⟩
  · intro ch hch
    have hcodes := hI.last ch hch
    refine ⟨?_, hcodes ▸ hI.nodup, fun c => hcodes ▸ hI.mem c⟩
    have hmap : ((updates s).map Changes.progress).getLast? = some ch.progress := by
      rw [List.getLast?_map, hch]; rfl
    rw [hI.prog] at hmap
    have hpos : 0 < s.completed := by
      rcases Nat.eq_zero_or_pos s.completed with h0 | h0
      · rw [h0] at hmap; simp at hmap
      · exact h0
    obtain ⟨j, hj⟩ : ∃ j, s.completed = j + 1 := ⟨s.completed - 1, by omega⟩
    rw [hj, List.range_succ, List.map_append, List.map_singleton,
      List.getLast?_append] at hmap
    simp only [List.getLast?_singleton, Option.or] at hmap
    have hp := Option.some.inj hmap
    rw [← hp, ← hj, hk]
    have hn0 : (cfg.report.urls.length : ℚ) ≠ 0 := by
      have : 0 < cfg.report.urls.length := by omega
      exact_mod_cast this.ne'
    exact div_self hn0

/-- C3, on the run `runTwo`, which drains the queue of `cfgTwo`: the worker
answered `u1` with code `a` and `u2` with codes `a` and `b`. -/
theorem queueJobs_drained_last_update_witness :
    ∃ s, queueJobs cfgTwo runTwo = some s ∧ drained s ∧
      (answeredOk runTwo).map (fun p => p.2.map Issue.code) = [["a"], ["a", "b"]] ∧
      (updates s).getLast?.map Changes.codes = some ["a", "b"] ∧
      ∀ ch, (updates s).getLast? = some ch →
        ch.progress = 1 ∧ ch.codes.Nodup ∧
        ∀ c, c ∈ ch.codes ↔ ∃ p ∈ answeredOk runTwo, ∃ i ∈ p.2, i.code = c :=
  ⟨_, rfl, by decide, by decide, rfl,
    (queueJobs_drained_last_update cfgTwo runTwo _ rfl (by decide)).2.2⟩

/-- C9: with a concurrency limit of at least 1, the number of URLs in flight
never exceeds the limit, whatever responses (failures and re-enqueues
included) have arrived. -/
theorem queueJobs_inflight_le (cfg : Settings) (evs : List Event) (s : State)
    (_hc : 1 ≤ cfg.concurrency) (h : queueJobs cfg evs = some s) :
    s.running.length ≤ cfg.concurrency :=
  (inv_queueJobs cfg evs s h).run_le

/-- C9, on the run `runThree`: two workers, three URLs, one failure. -/
theorem queueJobs_inflight_le_witness :
    ∃ s, 1 ≤ cfgThree.concurrency ∧ queueJobs cfgThree runThree = some s ∧
      s.running.length ≤ cfgThree.concurrency :=
  ⟨_, by decide, rfl, queueJobs_inflight_le cfgThree runThree _ (by decide) rfl⟩

/-! ## The engine: worker failures -/

theorem fields_onWorkerFailure (cfg : Settings) (s : State) (u : Url) :
    (onWorkerFailure cfg s u).running =
      s.running.erase u ++
        (s.tasks ++ [u]).take (cfg.concurrency - (s.running.erase u).length) ∧
    (onWorkerFailure cfg s u).tasks =
      (s.tasks ++ [u]).drop (cfg.concurrency - (s.running.erase u).length) ∧
    (onWorkerFailure cfg s u).promise = s.promise ∧
    (onWorkerFailure cfg s u).error = s.error ∧
    (onWorkerFailure cfg s u).errors = s.errors ∧
    (onWorkerFailure cfg s u).completed = s.completed ∧
    (onWorkerFailure cfg s u).codes = s.codes ∧
    (onWorkerFailure cfg s u).calls = s.calls := by
  unfold onWorkerFailure
  rw [done_eq, requeue_eq]
  simp

/-- C8: when the worker call for a URL in flight fails, the callback re-enqueues
that URL behind every pending URL, releases the slot and pulls the front of the
pending sequence into it; the promise, the error flag and the recorded errors
are left as they were, and nothing is counted as completed. -/
theorem queueJobs_worker_failure (cfg : Settings) (evs : List Event) (s : State)
    (u : Url) (r : Response (List Issue))
    (hc : 1 ≤ cfg.concurrency) (h : queueJobs cfg evs = some s)
    (hu : u ∈ s.running) (hr : r.statusType ≠ some 2) :
    step cfg s (.workerDone u r) = some (onWorkerFailure cfg s u) ∧
    onWorkerFailure cfg s u = done cfg.concurrency (requeue s u) u ∧
    (requeue s u).tasks = s.tasks ++ [u] ∧
    (onWorkerFailure cfg s u).running = s.running.erase u ++ (s.tasks ++ [u]).take 1 ∧
    (onWorkerFailure cfg s u).tasks = (s.tasks ++ [u]).drop 1 ∧
    (onWorkerFailure cfg s u).promise = s.promise ∧
    (onWorkerFailure cfg s u).error = s.error ∧
    (onWorkerFailure cfg s u).errors = s.errors ∧
    (onWorkerFailure cfg s u).completed = s.completed ∧
    updates (onWorkerFailure cfg s u) = updates s := by
  have hI := inv_queueJobs cfg evs s h
  obtain ⟨f1, f2, f3, f4, f5, f6, _, f8⟩ := fields_onWorkerFailure cfg s u
  have hlen : (s.running.erase u).length = s.running.length - 1 :=
    List.length_erase_of_mem hu
  have hpos : 0 < s.running.length := List.length_pos_of_mem hu
  have hle := hI.run_le
  have hstep : step cfg s (.workerDone u r) = some (onWorkerFailure cfg s u) := by
    simp [step, hu, postJobToWorker, hr]
  have hk : (s.tasks ++ [u]).take (cfg.concurrency - (s.running.erase u).length) =
        (s.tasks ++ [u]).take 1 ∧
      (s.tasks ++ [u]).drop (cfg.concurrency - (s.running.erase u).length) =
        (s.tasks ++ [u]).drop 1 := by
    rcases hI.sat (List.ne_nil_of_mem hu) with ht | hfull
    · have h1 : 1 ≤ cfg.concurrency - (s.running.erase u).length := by omega
      rw [ht, List.nil_append]
      constructor
      · rw [List.take_of_length_le (by simpa using h1), List.take_of_length_le (by simp)]
      · rw [List.drop_of_length_le (by simpa using h1), List.drop_of_length_le (by simp)]
    · have h1 : cfg.concurrency - (s.running.erase u).length = 1 := by omega
      rw [h1]
      exact ⟨rfl, rfl⟩
  refine ⟨hstep, rfl, by rw [requeue_eq], ?_, ?_, f3, f4, f5, f6, ?_⟩
  · rw [f1, hk.1]
  · rw [f2, hk.2]
  · simp only [updates, f8]

/-- C8, on the run `runThree` cut after its first event: `u1` and `u2` are in
flight, `u3` is pending, and the worker call for `u1` fails. -/
theorem queueJobs_worker_failure_witness :
    ∃ s, 1 ≤ cfgThree.concurrency ∧ queueJobs cfgThree (runThree.take 1) = some s ∧
      "u1" ∈ s.running ∧ workerFail.statusType ≠ some 2 ∧
      step cfgThree s (.workerDone "u1" workerFail) =
        some (onWorkerFailure cfgThree s "u1") ∧
      (onWorkerFailure cfgThree s "u1").tasks = (s.tasks ++ ["u1"]).drop 1 ∧
      (onWorkerFailure cfgThree s "u1").promise = s.promise :=
  ⟨_, by decide, rfl, by decide, by decide,
    (queueJobs_worker_failure cfgThree (runThree.take 1) _ "u1" workerFail (by decide) rfl
      (by decide) (by decide)).1,
    (queueJobs_worker_failure cfgThree (runThree.take 1) _ "u1" workerFail (by decide) rfl
      (by decide) (by decide)).2.2.2.2.1,
    (queueJobs_worker_failure cfgThree (runThree.take 1) _ "u1" workerFail (by decide) rfl
      (by decide) (by decide)).2.2.2.2.2.1⟩
/-! ## The engine: a URL that always fails -/

/-- The property kept by a URL whose worker call never succeeds. -/
theorem stuck_step (cfg : Settings) (u : Url) (s s1 : State) (e : Event)
    (hE : ∀ r, e = .workerDone u r → r.statusType ≠ some 2)
    (hP : (u ∈ s.tasks ∨ u ∈ s.running) ∧ Immediate.drain ∉ s.immediates ∧
      s.promise ≠ .resolved ())
    (hs : step cfg s e = some s1) :
    (u ∈ s1.tasks ∨ u ∈ s1.running) ∧ Immediate.drain ∉ s1.immediates ∧
      s1.promise ≠ .resolved () := by
  obtain ⟨hmem, hdr, hpr⟩ := hP
  have split_mem : ∀ (k : Nat) (R T : List Url), (u ∈ T ∨ u ∈ R) →
      (u ∈ T.drop k ∨ u ∈ R ++ T.take k) := by
    intro k R T hm
    rcases hm with hm | hm
    · rw [← List.take_append_drop k T] at hm
      rcases List.mem_append.mp hm with hm | hm
      · exact Or.inr (List.mem_append_right _ hm)
      · exact Or.inl hm
    · exact Or.inr (List.mem_append_left _ hm)
  rcases step_cases hs with ⟨_, rest, hi, rfl⟩ | ⟨_, rest, hi, rfl⟩ |
    ⟨v, r, issues, he, hv, hok, rfl⟩ | ⟨v, r, err, he, hv, _, rfl⟩ |
    ⟨i, rs, w, o, _, _, _, _, rfl⟩
  · rw [process_eq]
    refine ⟨split_mem _ _ _ hmem, ?_, hpr⟩
    intro hin
    exact hdr (by rw [hi]; exact List.mem_cons_of_mem _ hin)
  · exact absurd (by rw [hi]; exact List.mem_cons_self _ _) hdr
  · have hvu : u ≠ v := by
      intro huv
      subst huv
      have := hE r he
      simp [postJobToWorker, this] at hok
    have hmem2 : u ∈ s.tasks ∨ u ∈ s.running.erase v := by
      rcases hmem with hm | hm
      · exact Or.inl hm
      · exact Or.inr ((List.mem_erase_of_ne hvu).mpr hm)
    unfold onWorkerSuccess
    rw [done_eq]
    refine ⟨split_mem _ _ _ hmem2, hdr, ?_⟩
    have hcond : ¬ (s.tasks = [] ∧ s.running.erase v = [] ∧ s.error = false) := by
      rintro ⟨h1, h2, _⟩
      rcases hmem2 with hm | hm
      · rw [h1] at hm; cases hm
      · rw [h2] at hm; cases hm
    simp only [if_neg hcond]
    exact hpr
  · have hmem2 : u ∈ s.tasks ++ [v] ∨ u ∈ s.running.erase v := by
      by_cases hvu : u = v
      · exact Or.inl (List.mem_append_right _ (by simp [hvu]))
      · rcases hmem with hm | hm
        · exact Or.inl (List.mem_append_left _ hm)
        · exact Or.inr ((List.mem_erase_of_ne hvu).mpr hm)
    obtain ⟨f1, f2, f3, _⟩ := fields_onWorkerFailure cfg s v
    refine ⟨?_, ?_, f3 ▸ hpr⟩
    · rw [f1, f2]
      exact split_mem _ _ _ hmem2
    · unfold onWorkerFailure
      rw [done_eq, requeue_eq]
      simpa using hdr
  · have hrej : ∀ e : Err, s.promise.reject e ≠ .resolved () := by
      intro e
      cases hp : s.promise with
      | pending => simp [PState.reject]
      | resolved v => exact absurd hp hpr
      | rejected e2 => simp [PState.reject]
    cases o with
    | ok v => exact ⟨hmem, hdr, hpr⟩
    | error e => exact ⟨hmem, hdr, hrej e⟩

/-- C10: when the worker call of a URL of the report fails every time, that URL
is pending or in flight in every state the engine reaches, the queue is never
drained and the promise of `queueJobs` is never resolved; a further failure is
then always possible and puts the URL back again. -/
theorem queueJobs_always_failing (cfg : Settings) (u : Url) (evs : List Event) (s : State)
    (hu : u ∈ cfg.report.urls)
    (hfail : ∀ r, Event.workerDone u r ∈ evs → r.statusType ≠ some 2)
    (h : queueJobs cfg evs = some s) :
    (u ∈ s.tasks ∨ u ∈ s.running) ∧ ¬ drained s ∧ s.promise ≠ .resolved () ∧
    (u ∈ s.running →
      step cfg s (.workerDone u workerFail) = some (onWorkerFailure cfg s u) ∧
      (u ∈ (onWorkerFailure cfg s u).tasks ∨ u ∈ (onWorkerFailure cfg s u).running)) := by
  have hinit : (u ∈ (init cfg).tasks ∨ u ∈ (init cfg).running) ∧
      Immediate.drain ∉ (init cfg).immediates ∧ (init cfg).promise ≠ .resolved () := by
    have hne : cfg.report.urls.isEmpty = false := by
      cases hl : cfg.report.urls with
      | nil => rw [hl] at hu; cases hu
      | cons a l => rfl
    simp [init, push, hne, hu]
  have hP := runFrom_induction cfg
    (fun s => (u ∈ s.tasks ∨ u ∈ s.running) ∧ Immediate.drain ∉ s.immediates ∧
      s.promise ≠ .resolved ())
    (fun e => ∀ r, e = .workerDone u r → r.statusType ≠ some 2)
    (fun s e s1 hE hP hs => stuck_step cfg u s s1 e hE hP hs)
    evs (init cfg) s (fun e he r her => hfail r (her ▸ he)) hinit h
  obtain ⟨hmem, _, hpr⟩ := hP
  refine ⟨hmem, ?_, hpr, ?_⟩
  · rintro ⟨ht, hr⟩
    rcases hmem with hm | hm
    · rw [ht] at hm; cases hm
    · rw [hr] at hm; cases hm
  · intro hrun
    have hstep : step cfg s (.workerDone u workerFail) = some (onWorkerFailure cfg s u) := by
      simp [step, hrun, postJobToWorker, workerFail]
    refine ⟨hstep, ?_⟩
    exact (stuck_step cfg u s _ (.workerDone u workerFail)
      (fun r hr => by cases hr; simp [workerFail]) ⟨hmem, ‹_›, hpr⟩ hstep).1

theorem runStuck_fails :
    ∀ r, Event.workerDone "u" r ∈ runStuck → r.statusType ≠ some 2 := by
  intro r hr
  simp only [runStuck, List.mem_cons, List.mem_singleton, Event.workerDone.injEq,
    true_and, List.not_mem_nil, or_false, reduceCtorEq, false_or] at hr
  rcases hr with rfl | rfl | rfl <;> simp [workerFail]

/-- C10, on the run `runStuck` over `cfgOne`, whose only URL fails three times
in a row. -/
theorem queueJobs_always_failing_witness :
    ∃ s, "u" ∈ cfgOne.report.urls ∧
      (∀ r, Event.workerDone "u" r ∈ runStuck → r.statusType ≠ some 2) ∧
      queueJobs cfgOne runStuck = some s ∧
      ("u" ∈ s.tasks ∨ "u" ∈ s.running) ∧ ¬ drained s ∧ s.promise ≠ .resolved () :=
  ⟨_, by decide, runStuck_fails, rfl,
    (queueJobs_always_failing cfgOne "u" runStuck _ (by decide) runStuck_fails rfl).1,
    (queueJobs_always_failing cfgOne "u" runStuck _ (by decide) runStuck_fails rfl).2.1,
    (queueJobs_always_failing cfgOne "u" runStuck _ (by decide) runStuck_fails rfl).2.2.1⟩

/-! ## Errors of the write calls -/

/-- C7: `createUrl`, `createReport` and `updateReport` resolve exactly on a
response of status type 2 and reject with the response's error otherwise, but
`createIssue` resolves on every response: on a 5xx response it resolves with
the body where the other three reject with the error. -/
theorem createIssue_resolves_on_failure :
    createIssue apiFail = .ok apiFail.body ∧
    createUrl apiFail = .error apiFail.error ∧
    updateReport apiFail = .error apiFail.error ∧
    createReport "t" "api" "worker" 1 ⟨some "u", "WCAG2AA", ["u"]⟩
      ⟨some 5, cfgOne.report, "api down"⟩ = .error "api down" ∧
    (∀ r : Response Body, createIssue r = .ok r.body) ∧
    (∀ r : Response Body, (∃ b, createUrl r = .ok b) ↔ r.statusType = some 2) ∧
    (∀ r : Response Body, (∃ b, updateReport r = .ok b) ↔ r.statusType = some 2) ∧
    (∀ rs : List (Response Body), postIssues rs = .ok (rs.map (fun r => r.body))) := by
  refine ⟨rfl, rfl, rfl, rfl, fun _ => rfl, ?_, ?_, ?_⟩
  · intro r
    unfold createUrl
    by_cases h : r.statusType = some 2 <;> simp [h]
  · intro r
    unfold updateReport
    by_cases h : r.statusType = some 2 <;> simp [h]
  · intro rs
    induction rs with
    | nil => rfl
    | cons r rest ih =>
      simp only [postIssues, List.map_cons, createIssue, promiseAll] at ih ⊢
      rw [ih]

/-- C5: on the run `runOneLate` the only URL succeeds, the queue drains and the
promise is resolved while the write calls are still unanswered; the failure of
`updateReport` that arrives next is recorded (`error` is set, the error is
logged) but the promise stays resolved and is not rejected. -/
theorem queueJobs_late_error_resolved :
    ∃ s, queueJobs cfgOne runOneLate = some s ∧ s.error = true ∧
      s.errors = ["api down"] ∧ s.promise = .resolved () ∧
      s.promise ≠ .rejected "api down" ∧ drained s :=
  ⟨_, rfl, rfl, rfl, rfl, by decide, by decide⟩

/-- The final state of the promise of `runOnList` depends on the response to
`createReport` alone: the state in which the promise of `queueJobs` ends up
has no effect on it. -/
theorem runOnList_result (token apiUrl workerUrl : String) (concurrency : Nat)
    (urls : List Url) (response : Response Report) (dispatch : Settings → PState Unit) :
    runOnList token apiUrl workerUrl concurrency urls response dispatch =
      if response.statusType = some 2 then .resolved response.body
      else .rejected response.error := by
  unfold runOnList createReport
  by_cases h : response.statusType = some 2
  · simp only [h, if_true, PState.resolve]
    cases dispatch _ <;> rfl
  · simp only [h, if_false, PState.reject]

/-- C6: on the run `runTwoRejected` over the created report `queueJobs` records
a persistence error and its promise is rejected with it; the trailing
`catch(reject)` of `runOnList` passes that error to `reject`, but the promise
was already resolved with the report, so `runOnList` ends resolved with the
report and not rejected with the recorded error. -/
theorem runOnList_keeps_report_on_dispatch_error :
    ∃ s, queueJobs cfgTwo runTwoRejected = some s ∧ s.error = true ∧
      s.promise = .rejected "api down" ∧
      createReport "t" "api" "worker" 1 ⟨some "u1", "WCAG2AA", ["u1", "u2"]⟩
          ⟨some 2, cfgTwo.report, ""⟩ = .ok cfgTwo ∧
      runOnList "t" "api" "worker" 1 ["u1", "u2"] ⟨some 2, cfgTwo.report, ""⟩
          (fun st => ((queueJobs st runTwoRejected).map State.promise).getD .pending) =
        .resolved cfgTwo.report ∧
      runOnList "t" "api" "worker" 1 ["u1", "u2"] ⟨some 2, cfgTwo.report, ""⟩
          (fun st => ((queueJobs st runTwoRejected).map State.promise).getD .pending) ≠
        .rejected "api down" :=
  ⟨_, rfl, rfl, rfl, rfl, rfl, by decide⟩
/-! ## Retries are not bounded -/

theorem runFrom_failures (cfg : Settings) (u : Url) (hc : 1 ≤ cfg.concurrency) :
    ∀ (k : Nat) (s : State), s.running = [u] → s.tasks = [] →
      ∃ s1, runFrom cfg s (List.replicate k (.workerDone u workerFail)) = some s1 ∧
        s1.running = [u] ∧ s1.tasks = [] ∧
        s1.dispatched = s.dispatched ++ List.replicate k u ∧
        s1.promise = s.promise := by
  intro k
  induction k with
  | zero => intro s hr ht; exact ⟨s, rfl, hr, ht, by simp, rfl⟩
  | succ k ih =>
    intro s hr ht
    have hstep : step cfg s (.workerDone u workerFail) = some (onWorkerFailure cfg s u) := by
      simp [step, hr, postJobToWorker, workerFail]
    have hk : cfg.concurrency - 0 = (cfg.concurrency - 1) + 1 := by omega
    have hf : (onWorkerFailure cfg s u).running = [u] ∧
        (onWorkerFailure cfg s u).tasks = [] ∧
        (onWorkerFailure cfg s u).dispatched = s.dispatched ++ [u] ∧
        (onWorkerFailure cfg s u).promise = s.promise := by
      unfold onWorkerFailure
      rw [done_eq, requeue_eq]
      simp [hr, ht, hk]
    obtain ⟨s1, h1, h2, h3, h4, h5⟩ := ih (onWorkerFailure cfg s u) hf.1 hf.2.1
    refine ⟨s1, ?_, h2, h3, ?_, h5.trans hf.2.2.2⟩
    · simp only [List.replicate_succ, runFrom, hstep, Option.bind]
      exact h1
    · rw [h4, hf.2.2.1, List.replicate_succ, List.append_assoc, List.singleton_append]

/-- There is no retry limit: over a report of one URL, for every `k` there is a
run in which the worker call fails `k` times and the URL has been handed to the
worker `k + 1` times, the promise still pending. -/
theorem retry_unbounded (cfg : Settings) (u : Url) (hc : 1 ≤ cfg.concurrency)
    (hu : cfg.report.urls = [u]) (k : Nat) :
    ∃ s, queueJobs cfg (.tick :: List.replicate k (.workerDone u workerFail)) = some s ∧
      s.dispatched = List.replicate (k + 1) u ∧ s.running = [u] ∧
      s.promise = .pending := by
  have hk : cfg.concurrency - 0 = (cfg.concurrency - 1) + 1 := by omega
  have hinit : init cfg =
      { tasks := [u], running := [], immediates := [.process], completed := 0, codes := [],
        error := false, promise := .pending, calls := [], answered := [], errors := [],
        dispatched := [] } := by
    simp [init, push, hu]
  have htick : step cfg (init cfg) .tick =
      some
        { tasks := [], running := [u], immediates := [], completed := 0, codes := [],
          error := false, promise := .pending, calls := [], answered := [], errors := [],
          dispatched := [u] } := by
    rw [hinit]
    simp [step, process_eq, hk]
  obtain ⟨s1, h1, h2, _, h4, h5⟩ := runFrom_failures cfg u hc k
    { tasks := [], running := [u], immediates := [], completed := 0, codes := [],
      error := false, promise := .pending, calls := [], answered := [], errors := [],
      dispatched := [u] } rfl rfl
  refine ⟨s1, ?_, ?_, h2, h5⟩
  · simp only [queueJobs, runFrom, htick, Option.bind]
    exact h1
  · rw [h4, List.replicate_succ]
    rfl

end Seoa11y
